import Mathlib

/-!
Shallow embedding of the vocabulary pipeline of the chinese-reader repository:
the HSK token-stream record parser (`scripts/parse_origtxt.py`) and the
CC-CEDICT dictionary construction pipeline (`scripts/masterdict_from_masterorig.py`).

Python strings are modelled as Lean `String` (processed as `List Char`,
i.e. lists of Unicode code points, matching Python string semantics), and the
concrete regular expressions of the source are modelled as the explicit
character-scanning functions they denote.
-/

namespace ChineseReader

/-- ASCII whitespace, as matched by Python `str.strip` and the regex class `\s`
on the characters that occur in this pipeline. -/
def pyIsSpace (c : Char) : Bool :=
  c = ' ' || c = '\t' || c = '\n' || c = '\r' || c = '\x0b' || c = '\x0c'

/-- Drop trailing characters satisfying `p`. -/
def dropTrailing (p : Char → Bool) (l : List Char) : List Char :=
  (l.reverse.dropWhile p).reverse

/-- Python `str.strip()` on a list of characters. -/
def stripChars (l : List Char) : List Char :=
  dropTrailing pyIsSpace (l.dropWhile pyIsSpace)

/-- Python `str.strip()`. -/
def pstrip (s : String) : String :=
  ⟨stripChars s.data⟩

/-- Substring test on character lists: Python `needle in hay`. -/
def containsSub (needle : List Char) : List Char → Bool
  | [] => needle.isEmpty
  | c :: t => needle.isPrefixOf (c :: t) || containsSub needle t

/-- Python substring test `pat in s`. -/
def strContains (pat s : String) : Bool :=
  containsSub pat.data s.data

/-- Lexicographic comparison of character lists by code point, as Python
compares strings. -/
def charListLt : List Char → List Char → Bool
  | [], [] => false
  | [], _ :: _ => true
  | _ :: _, [] => false
  | a :: as, b :: bs => a < b || (a = b && charListLt as bs)

/-- ASCII decimal digit, the class `\d` (Python also accepts other Unicode
decimal digits there; only ASCII digits occur in this pipeline). -/
def isAsciiDigit (c : Char) : Bool :=
  48 ≤ c.toNat && c.toNat ≤ 57

/-- Numeric value of a decimal-digit string, as Python `int` on a string of
digits. -/
def decValue (s : String) : Nat :=
  s.data.foldl (fun acc c => acc * 10 + (c.toNat - 48)) 0

/-- Python `str.isdigit()` / a full `^\d+$` match: nonempty and all digits. -/
def allDigits (s : String) : Bool :=
  !s.data.isEmpty && s.data.all isAsciiDigit

/-- Deduplicate keeping the first occurrence of each element, as the
seen-set loops of the source do. -/
def dedupKeepFirst {α : Type} [DecidableEq α] : List α → List α
  | [] => []
  | x :: t => x :: (dedupKeepFirst t).filter (· ≠ x)

/-- Insert `x` before the first element `y` with `le x y`; auxiliary to
`sortLe`. -/
def insertLe {α : Type} (le : α → α → Bool) (x : α) : List α → List α
  | [] => [x]
  | y :: ys => if le x y then x :: y :: ys else y :: insertLe le x ys

/-- Stable insertion sort with respect to a total boolean relation `le`;
for a total preorder this computes the same list as Python `list.sort`
with the corresponding key (Python sorts are stable). -/
def sortLe {α : Type} (le : α → α → Bool) : List α → List α
  | [] => []
  | x :: xs => insertLe le x (sortLe le xs)

/-- Python `str.split(sep)` for a one-character separator on character lists. -/
def splitOnChar (sep : Char) : List Char → List (List Char)
  | [] => [[]]
  | c :: t =>
    if c = sep then [] :: splitOnChar sep t
    else
      match splitOnChar sep t with
      | h :: r => (c :: h) :: r
      | [] => [[c]]

/-- Python `re.split` on a (run of) separator-class characters, keeping only
the non-separator runs: the nonempty pieces of the split. A non-separator
character either closes its run (next character is a separator or the end)
or glues onto the run that follows. -/
def wordsBy (p : Char → Bool) : List Char → List (List Char)
  | [] => []
  | c :: t =>
    if p c then wordsBy p t
    else
      match t with
      | [] => [[c]]
      | d :: _ =>
        if p d then [c] :: wordsBy p t
        else
          match wordsBy p t with
          | w :: ws => (c :: w) :: ws
          | [] => [[c]]

/-- Scan for the first occurrence of `stop`, returning the characters after
it; `none` when `stop` does not occur. -/
def afterChar (stop : Char) : List Char → Option (List Char)
  | [] => none
  | c :: t => if c = stop then some t else afterChar stop t

theorem afterChar_length {stop : Char} :
    ∀ {l t : List Char}, afterChar stop l = some t → t.length < l.length := by
  intro l
  induction l with
  | nil => intro t h; simp [afterChar] at h
  | cons c cs ih =>
    intro t h
    simp only [afterChar] at h
    split at h
    · cases h; simp
    · have := ih h; simp; omega

theorem afterChar_subset {stop : Char} :
    ∀ {l t : List Char}, afterChar stop l = some t → ∀ c ∈ t, c ∈ l := by
  intro l
  induction l with
  | nil => intro t h; simp [afterChar] at h
  | cons c cs ih =>
    intro t h
    simp only [afterChar] at h
    split at h
    · cases h; intro x hx; exact List.mem_cons_of_mem _ hx
    · intro x hx; exact List.mem_cons_of_mem _ (ih h x hx)

/-- Python `re.sub` of the pattern `\s+` by a single space: collapse every
whitespace run to one space character (a whitespace character is skipped
when another one follows it, and emits the single space otherwise). -/
def collapseWs : List Char → List Char
  | [] => []
  | c :: t =>
    if pyIsSpace c then
      match t with
      | [] => [' ']
      | d :: _ => if pyIsSpace d then collapseWs t else ' ' :: collapseWs t
    else c :: collapseWs t

/-! Model of `scripts/parse_origtxt.py`: token classification, the band-token
grammar, and the streaming record-reconstruction parser `parse_tokens`. -/

/-- Membership in the CJK ideograph range `[一-鿿]`. -/
def isCJK (c : Char) : Bool :=
  0x4e00 ≤ c.toNat && c.toNat ≤ 0x9fff

/-- `is_hanzi_token`: the token contains at least one CJK ideograph. -/
def is_hanzi_token (tok : String) : Bool :=
  tok.data.any isCJK

/-- The tone-marked vowels listed in the regex `RE_PINYINISH`. -/
def pinyinMarked : List Char :=
  ['ā', 'á', 'ǎ', 'à', 'ē', 'é', 'ě', 'è', 'ī', 'í', 'ǐ', 'ì',
   'ō', 'ó', 'ǒ', 'ò', 'ū', 'ú', 'ǔ', 'ù', 'ǖ', 'ǘ', 'ǚ', 'ǜ']

/-- ASCII letter, the class `[a-zA-Z]`. -/
def isAsciiAlpha (c : Char) : Bool :=
  (65 ≤ c.toNat && c.toNat ≤ 90) || (97 ≤ c.toNat && c.toNat ≤ 122)

/-- Search test of `RE_PINYINISH = [a-zA-Z]|[āáǎàēéěèīíǐìōóǒòūúǔùǖǘǚǜ]|/`. -/
def isPinyinish (tok : String) : Bool :=
  tok.data.any (fun c => isAsciiAlpha c || pinyinMarked.contains c || c = '/')

/-- Full match of `RE_INT = ^\d+$`. -/
def isInt (tok : String) : Bool :=
  allDigits tok

/-- Full match of `RE_PAGE_NUMBER = ^\d{1,4}$`. -/
def isPageNumber (tok : String) : Bool :=
  allDigits tok && tok.data.length ≤ 4

/-- The fixed POS marker roots `POS_ROOTS`. -/
def POS_ROOTS : List String :=
  ["名", "动", "形", "副", "代", "助", "量", "介", "连", "叹", "前缀", "后缀", "数", "数量"]

/-- `looks_like_pos`: search test of `RE_POS`, the alternation of the escaped
POS roots, which holds exactly when some root occurs as a substring. -/
def looks_like_pos (tok : String) : Bool :=
  POS_ROOTS.any (fun r => containsSub r.data tok.data)

/-- Full match of `RE_POS_PUNCT = ^[、，,/()（）\-\s]+$`. -/
def isPosPunct (tok : String) : Bool :=
  !tok.data.isEmpty && tok.data.all (fun c =>
    c = '、' || c = '，' || c = ',' || c = '/' || c = '(' || c = ')' ||
    c = '（' || c = '）' || c = '-' || pyIsSpace c)

/-- The class `[（(]` opening a parenthetical band annotation. -/
def isOpenParen (c : Char) : Bool :=
  c = '(' || c = '（'

/-- The class `[）)]` closing a parenthetical band annotation. -/
def isCloseParen (c : Char) : Bool :=
  c = ')' || c = '）'

/-- The class `[\d\-]` inside a parenthetical band annotation. -/
def isDigitOrHyphen (c : Char) : Bool :=
  isAsciiDigit c || c = '-'

/-- Consume `\d+` at the head; `none` when no digit leads. -/
def matchDigits (l : List Char) : Option (List Char) :=
  if (l.takeWhile isAsciiDigit).isEmpty then none
  else some (l.dropWhile isAsciiDigit)

/-- Consume the leading part `\d+(?:-\d+)?` of `RE_BAND_TOKEN`. -/
def matchBandCore (l : List Char) : Option (List Char) :=
  match matchDigits l with
  | none => none
  | some rest =>
    match rest with
    | '-' :: r2 =>
      match matchDigits r2 with
      | some r3 => some r3
      | none => some rest
    | _ => some rest

/-- Consume one parenthetical group `[（(]\s*[\d\-]+\s*[）)]` of `RE_BAND_TOKEN`. -/
def matchParenGroup (l : List Char) : Option (List Char) :=
  match l with
  | [] => none
  | c :: r =>
    if isOpenParen c then
      if ((r.dropWhile pyIsSpace).takeWhile isDigitOrHyphen).isEmpty then none
      else
        match ((r.dropWhile pyIsSpace).dropWhile isDigitOrHyphen).dropWhile pyIsSpace with
        | d :: r3 => if isCloseParen d then some r3 else none
        | [] => none
    else none

theorem matchParenGroup_length :
    ∀ {l r : List Char}, matchParenGroup l = some r → r.length < l.length := by
  intro l r h
  match l with
  | [] => simp [matchParenGroup] at h
  | c :: t =>
    simp only [matchParenGroup] at h
    split at h
    · split at h
      · exact absurd h (by simp)
      · split at h
        case h_1 d r3 heq =>
          split at h
          · cases h
            have h1 : (((t.dropWhile pyIsSpace).dropWhile isDigitOrHyphen).dropWhile
                pyIsSpace).length ≤ t.length := by
              calc (((t.dropWhile pyIsSpace).dropWhile isDigitOrHyphen).dropWhile
                    pyIsSpace).length
                  ≤ ((t.dropWhile pyIsSpace).dropWhile isDigitOrHyphen).length :=
                    List.Sublist.length_le (List.dropWhile_sublist _)
                _ ≤ (t.dropWhile pyIsSpace).length :=
                    List.Sublist.length_le (List.dropWhile_sublist _)
                _ ≤ t.length := List.Sublist.length_le (List.dropWhile_sublist _)
            rw [heq] at h1
            simp at h1 ⊢
            omega
          · exact absurd h (by simp)
        case h_2 => exact absurd h (by simp)
    · exact absurd h (by simp)

/-- Fuel-indexed worker for the Kleene star
`(?:[（(]\s*[\d\-]+\s*[）)])*`: consume groups greedily. One unit of fuel is
spent per matched group, and every group consumes at least one character
(`matchParenGroup_length`), so the `l.length` units supplied by
`consumeGroups` never run out. -/
def consumeGroupsF : Nat → List Char → List Char
  | 0, l => l
  | fuel + 1, l =>
    match matchParenGroup l with
    | some r => consumeGroupsF fuel r
    | none => l

/-- Consume the Kleene star `(?:[（(]\s*[\d\-]+\s*[）)])*` greedily. -/
def consumeGroups (l : List Char) : List Char :=
  consumeGroupsF l.length l

/-- Full (anchored) match of
`RE_BAND_TOKEN = ^(?:\d+(?:-\d+)?)(?:[（(]\s*[\d\-]+\s*[）)])*$`.
The character classes that meet at each choice point of the pattern are
pairwise disjoint, so this greedy scan without backtracking decides the same
language as the regex. -/
def isBandToken (tok : String) : Bool :=
  match matchBandCore tok.data with
  | some rest => (consumeGroups rest).isEmpty
  | none => false

/-- `normalize_band_token`: the text before the first `（` or `(`
(`re.split(r"[（(]", tok, maxsplit=1)[0]`), stripped. -/
def normalize_band_token (tok : String) : String :=
  ⟨stripChars (tok.data.takeWhile (fun c => !isOpenParen c))⟩

/-- One parsed record of the raw HSK dump (the `Entry` dataclass). -/
structure Entry where
  id : Nat
  band : String
  hanzi : String
  pinyin : String
  part : String
deriving DecidableEq, Repr

/-- `tokens[i]` under the bounds checks of the source (the default is never
exposed: every access is guarded by `i < len(tokens)`). -/
def tokensGet (tokens : List String) (i : Nat) : String :=
  tokens.getD i ""

/-- `next_starts_entry(idx)`: token `idx` is a pure integer and token `idx+1`
matches the band grammar (false when fewer than two tokens remain). -/
def next_starts_entry (tokens : List String) (idx : Nat) : Bool :=
  match tokens.drop idx with
  | a :: b :: _ => isInt a && isBandToken b
  | _ => false

/-- The guard of the stray-`国际` heuristic: the next token is CJK-bearing and
the one after it is pinyin-like (`peek(1)`/`peek(2)` lookahead; a missing
token makes the guard fail, as `None` is falsy in the source). -/
def strayGuard (tokens : List String) (i : Nat) : Bool :=
  match tokens.drop (i + 1) with
  | t1 :: t2 :: _ => is_hanzi_token t1 && isPinyinish t2
  | _ => false

/-- Fuel-indexed worker for the HANZI phase of `parse_tokens`: consume
consecutive CJK-bearing tokens starting at `i`, dropping a stray `国际` when
`strayGuard` holds; returns the consumed tokens and the position after the
phase. One unit of fuel is spent per loop iteration; the wrapper supplies
`tokens.length - i` units, which suffice because every iteration advances
`i` by one, and at exhausted fuel `i` is past the end, where the source loop
also stops. -/
def hanziPhaseF (tokens : List String) : Nat → Nat → List String × Nat
  | 0, i => ([], i)
  | fuel + 1, i =>
    if i < tokens.length then
      if tokensGet tokens i = "国际" && strayGuard tokens i then
        hanziPhaseF tokens fuel (i + 1)
      else if is_hanzi_token (tokensGet tokens i) then
        (tokensGet tokens i :: (hanziPhaseF tokens fuel (i + 1)).1,
          (hanziPhaseF tokens fuel (i + 1)).2)
      else ([], i)
    else ([], i)

/-- The HANZI phase of `parse_tokens`. -/
def hanziPhase (tokens : List String) (i : Nat) : List String × Nat :=
  hanziPhaseF tokens (tokens.length - i) i

/-- Fuel-indexed worker for the PINYIN phase of `parse_tokens`: consume
pinyin-like tokens, silently skipping page numbers, stopping at the next
record start or a POS-like token (fuel as in `hanziPhaseF`). -/
def pinyinPhaseF (tokens : List String) : Nat → Nat → List String × Nat
  | 0, i => ([], i)
  | fuel + 1, i =>
    if i < tokens.length then
      if next_starts_entry tokens i then ([], i)
      else if looks_like_pos (tokensGet tokens i) then ([], i)
      else if isPinyinish (tokensGet tokens i) then
        (tokensGet tokens i :: (pinyinPhaseF tokens fuel (i + 1)).1,
          (pinyinPhaseF tokens fuel (i + 1)).2)
      else if isPageNumber (tokensGet tokens i) then pinyinPhaseF tokens fuel (i + 1)
      else ([], i)
    else ([], i)

/-- The PINYIN phase of `parse_tokens`. -/
def pinyinPhase (tokens : List String) (i : Nat) : List String × Nat :=
  pinyinPhaseF tokens (tokens.length - i) i

/-- Fuel-indexed worker for the POS phase of `parse_tokens`: consume POS-like
or POS-punctuation tokens, silently skipping page numbers, stopping at the
next record start (fuel as in `hanziPhaseF`). -/
def posPhaseF (tokens : List String) : Nat → Nat → List String × Nat
  | 0, i => ([], i)
  | fuel + 1, i =>
    if i < tokens.length then
      if next_starts_entry tokens i then ([], i)
      else if looks_like_pos (tokensGet tokens i) || isPosPunct (tokensGet tokens i) then
        (tokensGet tokens i :: (posPhaseF tokens fuel (i + 1)).1,
          (posPhaseF tokens fuel (i + 1)).2)
      else if isPageNumber (tokensGet tokens i) then posPhaseF tokens fuel (i + 1)
      else ([], i)
    else ([], i)

/-- The POS phase of `parse_tokens`. -/
def posPhase (tokens : List String) (i : Nat) : List String × Nat :=
  posPhaseF tokens (tokens.length - i) i

/-- Python `" ".join`. -/
def spaceJoin (l : List String) : String :=
  String.intercalate " " l

/-- The main scan loop of `parse_tokens`, indexed by the remaining fuel: one
unit of fuel is spent per iteration of the source `while i < n` loop, and
`parseLoop_fuel_sufficient` shows `tokens.length - i` units always suffice,
because every iteration advances the scan position by at least one token.
Records and reject windows are returned in stream order. -/
def parseLoop (tokens : List String) : Nat → Nat → List Entry × List String
  | 0, _ => ([], [])
  | fuel + 1, i =>
    if i < tokens.length then
      if isPageNumber (tokensGet tokens i) && !next_starts_entry tokens i then
        parseLoop tokens fuel (i + 1)
      else if !next_starts_entry tokens i then
        parseLoop tokens fuel (i + 1)
      else
        if (hanziPhase tokens (i + 2)).1 = [] then
          ((parseLoop tokens fuel (i + 1)).1,
            spaceJoin ((tokens.drop i).take 40) :: (parseLoop tokens fuel (i + 1)).2)
        else
          ({ id := decValue (tokensGet tokens i),
             band := normalize_band_token (tokensGet tokens (i + 1)),
             hanzi := String.join (hanziPhase tokens (i + 2)).1,
             pinyin := pstrip (spaceJoin (pinyinPhase tokens ((hanziPhase tokens (i + 2)).2)).1),
             part := pstrip (spaceJoin (posPhase tokens
               ((pinyinPhase tokens ((hanziPhase tokens (i + 2)).2)).2)).1) } ::
               (parseLoop tokens fuel ((posPhase tokens
                 ((pinyinPhase tokens ((hanziPhase tokens (i + 2)).2)).2)).2)).1,
            (parseLoop tokens fuel ((posPhase tokens
              ((pinyinPhase tokens ((hanziPhase tokens (i + 2)).2)).2)).2)).2)
    else ([], [])

/-- `parse_tokens`, run with enough fuel for its linear scan. -/
def parse_tokens (tokens : List String) : List Entry × List String :=
  parseLoop tokens tokens.length 0

/-! Model of `scripts/masterdict_from_masterorig.py`: pinyin normalization,
CC-CEDICT gloss simplification, entry disambiguation, and the merge engine. -/

/-- The uppercase precomposed tone-marked vowels and their lowercase forms. -/
def upperDiacritics : List (Char × Char) :=
  [('Ā', 'ā'), ('Á', 'á'), ('Ǎ', 'ǎ'), ('À', 'à'),
   ('Ē', 'ē'), ('É', 'é'), ('Ě', 'ě'), ('È', 'è'),
   ('Ī', 'ī'), ('Í', 'í'), ('Ǐ', 'ǐ'), ('Ì', 'ì'),
   ('Ō', 'ō'), ('Ó', 'ó'), ('Ǒ', 'ǒ'), ('Ò', 'ò'),
   ('Ū', 'ū'), ('Ú', 'ú'), ('Ǔ', 'ǔ'), ('Ù', 'ù'),
   ('Ǖ', 'ǖ'), ('Ǘ', 'ǘ'), ('Ǚ', 'ǚ'), ('Ǜ', 'ǜ'), ('Ü', 'ü')]

/-- Python `str.lower()` on the characters this pipeline feeds it: ASCII
letters and the precomposed tone-marked vowels (all other characters that
occur here are caseless and map to themselves). -/
def pyLower (c : Char) : Char :=
  if 65 ≤ c.toNat ∧ c.toNat ≤ 90 then Char.ofNat (c.toNat + 32)
  else (upperDiacritics.lookup c).getD c

/-- The `_TONE_MAP` table: tone-marked vowels to bare base vowels, `ü` to `v`. -/
def toneTable : List (Char × Char) :=
  [('ā', 'a'), ('á', 'a'), ('ǎ', 'a'), ('à', 'a'),
   ('ē', 'e'), ('é', 'e'), ('ě', 'e'), ('è', 'e'),
   ('ī', 'i'), ('í', 'i'), ('ǐ', 'i'), ('ì', 'i'),
   ('ō', 'o'), ('ó', 'o'), ('ǒ', 'o'), ('ò', 'o'),
   ('ū', 'u'), ('ú', 'u'), ('ǔ', 'u'), ('ù', 'u'),
   ('ǖ', 'v'), ('ǘ', 'v'), ('ǚ', 'v'), ('ǜ', 'v'), ('ü', 'v')]

/-- `_TONE_MAP.get(ch, ch)`. -/
def toneMap (c : Char) : Char :=
  (toneTable.lookup c).getD c

/-- Lowercase ASCII letter, the class `[a-z]`. -/
def isLowerAlpha (c : Char) : Bool :=
  97 ≤ c.toNat && c.toNat ≤ 122

/-- `normalize_pinyin_for_match`: strip, lowercase, map tone-marked vowels to
bare vowels (`ü` to `v`), delete digits (`re.sub(r"\d", "", p)`), then delete
every character outside `[a-zv]` (`re.sub(r"[^a-zv]", "", p)`). -/
def normalize_pinyin_for_match (p : String) : String :=
  ⟨((((stripChars p.data).map pyLower).map toneMap).filter
      (fun c => !isAsciiDigit c)).filter (fun c => isLowerAlpha c || c = 'v')⟩

/-- The `LOW_VALUE_PATTERNS` marker table. -/
def LOW_VALUE_PATTERNS : List String :=
  ["surname ", "abbr.", "abbrev.", "variant of", "see also", "old variant",
   "archaic", "onom.", "(onom.)", "(loanword)", "kangxi radical", "radical",
   "also pr.", "also written", "erhua variant", "classifier", "unit of weight",
   "old)", "(old", "obsolete", "chemistry"]

/-- Word character for the `\b` boundary in `RE_ANY_CL = \bCL:`; Python `\w`
is Unicode-aware, and on the characters occurring in CC-CEDICT glosses
(ASCII word characters, accented letters, ideographs) it is exactly this. -/
def pyIsWordChar (c : Char) : Bool :=
  (48 ≤ c.toNat && c.toNat ≤ 57) || (65 ≤ c.toNat && c.toNat ≤ 90) ||
    (97 ≤ c.toNat && c.toNat ≤ 122) || c = '_' || 128 ≤ c.toNat

/-- A `\b` boundary holds before `CL` when the preceding character (if any)
is not a word character. -/
def boundaryBefore : Option Char → Bool
  | none => true
  | some p => !pyIsWordChar p

/-- Scan for `\bCL:`, tracking the previous character. -/
def hasCLAux (prev : Option Char) : List Char → Bool
  | [] => false
  | c :: t =>
    (boundaryBefore prev && ['C', 'L', ':'].isPrefixOf (c :: t)) || hasCLAux (some c) t

/-- Search test of `RE_ANY_CL = \bCL:`. -/
def hasCL (l : List Char) : Bool :=
  hasCLAux none l

/-- `RE_LEADING_PAREN_TAG.sub("", d)`: remove one leading `\([^)]*\)\s*`;
the body runs to the first closing parenthesis, and a missing closer means
no match. -/
def stripLeadingParenTag (l : List Char) : List Char :=
  match l with
  | '(' :: rest =>
    match afterChar ')' rest with
    | some tail => tail.dropWhile pyIsSpace
    | none => l
  | _ => l

/-- Global removal of `RE_SQUARE_BRACKET = \[[^\]]+\]`: each `[` with a
nonempty bracket body up to the first `]` is deleted together with its body;
a `[` with no such body is kept literally and scanning moves on. -/
def removeBracketsF : Nat → List Char → List Char
  | 0, l => l
  | fuel + 1, l =>
    match l with
    | [] => []
    | c :: rest =>
      if c = '[' then
        if rest.head? = some ']' then c :: removeBracketsF fuel rest
        else
          match afterChar ']' rest with
          | some tail => removeBracketsF fuel tail
          | none => c :: removeBracketsF fuel rest
      else c :: removeBracketsF fuel rest

/-- Run the bracket-removal scan; one unit of fuel is spent per character
scanned or bracket chunk skipped, so `l.length` units always suffice. -/
def removeBrackets (l : List Char) : List Char :=
  removeBracketsF l.length l

/-- `strip_low_value_parentheticals`: the replacement callback returns the
empty string on every branch, so the global sub of
`RE_PAREN_CHUNK = \(([^)]*)\)` deletes every parenthesized chunk (body up to
the first closing parenthesis); a `(` with no closer is kept literally. -/
def removeParensF : Nat → List Char → List Char
  | 0, l => l
  | fuel + 1, l =>
    match l with
    | [] => []
    | c :: rest =>
      if c = '(' then
        match afterChar ')' rest with
        | some tail => removeParensF fuel tail
        | none => c :: removeParensF fuel rest
      else c :: removeParensF fuel rest

/-- Run the parenthetical-removal scan; one unit of fuel is spent per
character scanned or chunk skipped, so `l.length` units always suffice. -/
def removeParens (l : List Char) : List Char :=
  removeParensF l.length l

/-- The expansion loop of `simplify_cedict_definitions`: skip empty raw
senses, split every raw sense on `;`, strip the pieces, and drop empty
pieces. -/
def expandDefs (defs : List String) : List (List Char) :=
  (defs.filter (fun d => d ≠ "")).flatMap
    (fun d => ((splitOnChar ';' d.data).map stripChars).filter (fun s => s ≠ []))

/-- The per-candidate cleaning of the second loop of
`simplify_cedict_definitions`: returns the cleaned gloss, or `none` when the
candidate is dropped. -/
def cleanGloss (d0 : List Char) : Option (List Char) :=
  let d := stripChars d0
  if d.isEmpty then none
  else if hasCL d then none
  else
    let d1 := stripChars (stripLeadingParenTag d)
    if d1.isEmpty then none
    else
      let d2 := stripChars (removeBrackets d1)
      let d3 := stripChars (removeParens d2)
      let d4 := stripChars (d3.filter (fun c => !(c == '"') && !(c == Char.ofNat 39)))
      let d5 := stripChars (collapseWs d4)
      if d5.isEmpty then none
      else if LOW_VALUE_PATTERNS.any (fun p => containsSub p.data (d5.map pyLower)) then none
      else if 0 < (d5.filter (fun c => !(isAsciiAlpha c || c = ' '))).length ∧ d5.length ≤ 3
        then none
      else some d5

/-- The number of low-value pattern hits in the lowercased gloss
(`meta_penalty`). -/
def metaHits (g : List Char) : Nat :=
  LOW_VALUE_PATTERNS.countP (fun p => containsSub p.data (g.map pyLower))

/-- Strict lexicographic order on integer triples, as Python compares the
score tuples of this pipeline. -/
def lexLt3 (a b : Int × Int × Int) : Prop :=
  a.1 < b.1 ∨ (a.1 = b.1 ∧ (a.2.1 < b.2.1 ∨ (a.2.1 = b.2.1 ∧ a.2.2 < b.2.2)))

instance (a b : Int × Int × Int) : Decidable (lexLt3 a b) := by
  unfold lexLt3; infer_instance

/-- The ranking key of `simplify_cedict_definitions`:
`score(gloss) = (-meta_penalty, -min(len(gloss), 200), 0)`. -/
def glossScore (g : List Char) : Int × Int × Int :=
  (-(metaHits g : Int), -(min g.length 200 : Int), 0)

/-- `simplify_cedict_definitions(defs, max_defs)`: expand on `;`, clean each
candidate, deduplicate keeping first occurrences, stably sort by descending
`glossScore` (Python `uniq.sort(key=score, reverse=True)`), and truncate. -/
def simplify_cedict_definitions (defs : List String) (max_defs : Nat) : List String :=
  let cleaned := (expandDefs defs).filterMap cleanGloss
  let uniq := dedupKeepFirst cleaned
  let ranked := sortLe (fun a b => !decide (lexLt3 (glossScore a) (glossScore b))) uniq
  (ranked.take max_defs).map (fun l => ⟨l⟩)

/-- One CC-CEDICT entry (the `CedictEntry` dataclass): simplified form, raw
pinyin, and the raw `/`-delimited senses. -/
structure CedictEntry where
  simp : String
  pinyin_raw : String
  defs : List String
deriving DecidableEq, Repr

/-- `entry_quality_score`: `(0, 0, 0)` when no usable senses survive
simplification with cap 8, otherwise
`(len(simp_defs) - meta, -meta, -len(simp_defs[0]))` where `meta` counts the
simplified senses whose lowercased text still contains a low-value marker. -/
def entry_quality_score (entry : CedictEntry) : Int × Int × Int :=
  let simp_defs := simplify_cedict_definitions entry.defs 8
  if simp_defs.isEmpty then (0, 0, 0)
  else
    let meta := simp_defs.countP (fun g =>
      LOW_VALUE_PATTERNS.any (fun p => containsSub p.data (g.data.map pyLower)))
    ((simp_defs.length : Int) - meta, -(meta : Int), -(((simp_defs.headD "").length : Int)))

/-- Python `max(candidates, key=entry_quality_score)` replaces the running
best only on a strictly larger key, so the first element attaining the
maximal key wins ties. -/
def maxByFirst {α : Type} (key : α → Int × Int × Int) (best : α) : List α → α
  | [] => best
  | x :: xs =>
    if lexLt3 (key best) (key x) then maxByFirst key x xs else maxByFirst key best xs

/-- Python `max(l, key=...)` on a list. -/
def pyMax {α : Type} (key : α → Int × Int × Int) : List α → Option α
  | [] => none
  | x :: xs => some (maxByFirst key x xs)

/-- `choose_best_entry(entries, hsk_pinyin)`: `None` on an empty list, the
sole entry of a singleton, and otherwise the quality maximum over the
candidates, where the candidates are the entries whose normalized pinyin
equals the normalized target exactly — or all entries when the target
normalizes to the empty string (falsy) or no entry matches it. -/
def choose_best_entry (entries : List CedictEntry) (hsk_pinyin : String) :
    Option CedictEntry :=
  match entries with
  | [] => none
  | [e] => some e
  | _ :: _ :: _ =>
    let target := normalize_pinyin_for_match hsk_pinyin
    let candidates :=
      if target = "" then entries
      else
        let matched := entries.filter
          (fun e => normalize_pinyin_for_match e.pinyin_raw == target)
        if matched.isEmpty then entries else matched
    pyMax entry_quality_score candidates

/-- `band_rank`: `"7-9"` ranks `9`, a pure digit string ranks at its numeric
value (`^(\d+)$`), anything else ranks `99`; the input is stripped first. -/
def band_rank (band : String) : Nat :=
  let b := pstrip band
  if b = "7-9" then 9
  else if allDigits b then decValue b
  else 99

/-- `normalize_band_list`: strip each band, drop empties, deduplicate keeping
first occurrences, and stably sort by `band_rank`. -/
def normalize_band_list (bands : List String) : List String :=
  sortLe (fun a b => decide (band_rank a ≤ band_rank b))
    (dedupKeepFirst (((bands.map pstrip).filter (fun b => b ≠ ""))))

/-- One output object of `build_master_json` (a JSON dict in the source,
with the fields the pipeline reads and writes). -/
structure Item where
  word : String
  pinyin : String
  hsk_band : String
  hsk_bands : List String
  hsk_ids : List Nat
  hsk_surfaces : List String
  tags : List String
  ccedict_definitions : List String
deriving DecidableEq, Repr

/-- The order-preserving, empty-skipping union loops of `merge_items`
(`if s and s not in acc: acc.append(s)`). -/
def addUnique (acc : List String) (xs : List String) : List String :=
  xs.foldl (fun a s => if s ≠ "" ∧ s ∉ a then a ++ [s] else a) acc

/-- `merge_items(a, b)` for two entries sharing `(word, pinyin)`: ids become
the sorted set union, surfaces/tags/definitions the order-preserving unions,
bands the normalized union of the band lists and stripped canonical bands,
and the canonical band the head of the normalized list (`bands[0]` when
nonempty, else `""`); all other fields come from `a` (`out = dict(a)`). -/
def merge_items (a b : Item) : Item :=
  let ids := sortLe (fun x y => decide (x ≤ y)) (dedupKeepFirst (a.hsk_ids ++ b.hsk_ids))
  let surfaces := addUnique (addUnique [] a.hsk_surfaces) b.hsk_surfaces
  let bands := normalize_band_list
    (a.hsk_bands ++ b.hsk_bands ++
      (if pstrip a.hsk_band ≠ "" then [pstrip a.hsk_band] else []) ++
      (if pstrip b.hsk_band ≠ "" then [pstrip b.hsk_band] else []))
  let tags := addUnique (addUnique [] a.tags) b.tags
  let defs := addUnique (addUnique [] a.ccedict_definitions) b.ccedict_definitions
  { a with
    hsk_ids := ids
    hsk_surfaces := surfaces
    hsk_bands := bands
    hsk_band := bands.headD ""
    tags := tags
    ccedict_definitions := defs }

/-- One patch of the `CORRECTIONS` table. -/
structure Patch where
  word : Option String
  pinyin : Option String
  tags : Option (List String)

/-- The hardcoded `CORRECTIONS` table for syllabus corruption cases. -/
def CORRECTIONS : List (String × Patch) :=
  [("tí", ⟨some "提", some "tí", some ["动"]⟩),
   ("yán", ⟨some "盐", some "yán", some ["名"]⟩),
   ("cáng", ⟨some "藏", some "cáng", some ["动"]⟩),
   ("mǒu", ⟨some "某", some "mǒu", some ["代"]⟩),
   ("zhǎn", ⟨some "盏", some "zhǎn", some ["量"]⟩),
   ("心吊胆", ⟨some "提心吊胆", some "tíxīn-diàodǎn", none⟩),
   ("相并论", ⟨some "相提并论", some "xiāngtí-bìnglùn", none⟩),
   ("小琴", ⟨some "小提琴", some "xiǎotíqín", none⟩),
   ("捉迷", ⟨some "捉迷藏", some "zhuōmícáng", none⟩)]

/-- `apply_corrections(word, pinyin, tags)`: patch known corrupted rows. The
second branch of the source re-tests `word in CORRECTIONS` after that test
already failed, so it never fires, and the fall-through returns the inputs
unchanged. -/
def apply_corrections (word pinyin : String) (tags : List String) :
    String × String × List String :=
  match CORRECTIONS.lookup word with
  | some patch =>
    (patch.word.getD word, patch.pinyin.getD pinyin,
      match patch.tags with
      | some ts => if ts ≠ [] then ts else tags
      | none => tags)
  | none => (word, pinyin, tags)

/-- The hardcoded `FALLBACK_DEFS` gloss table, used only when the CC-CEDICT
definitions would otherwise be empty. -/
def FALLBACK_DEFS : List (String × List String) :=
  [("好玩儿", ["fun", "interesting"]),
   ("了", ["(particle) indicates a change or a completed action"]),
   ("面条儿", ["noodles"]),
   ("些", ["some", "a few"]),
   ("一点儿", ["a little", "a bit"]),
   ("小孩儿", ["child", "kid"]),
   ("辆", ["(measure word) for vehicles"]),
   ("聊天儿", ["to chat", "to talk"]),
   ("一块儿", ["together", "at the same time"]),
   ("纸", ["paper"]),
   ("差点儿", ["almost", "nearly"]),
   ("份", ["(measure word) portion", "copy"]),
   ("干活儿", ["to work", "to do chores"]),
   ("棵", ["(measure word) for trees/plants"]),
   ("摄氏度", ["degree Celsius"]),
   ("体检", ["physical exam", "medical checkup"]),
   ("纪录", ["record"]),
   ("颗", ["(measure word) for small round things"]),
   ("玫瑰", ["rose"]),
   ("土豆", ["potato"]),
   ("嘴巴", ["mouth"]),
   ("大伙儿", ["everyone", "the group"]),
   ("下功夫", ["to put in effort", "to work hard"]),
   ("新媒体", ["new media"]),
   ("新能源", ["new energy", "renewable energy"]),
   ("标识", ["to mark", "identifier", "logo"]),
   ("不予", ["not to grant", "to refuse"]),
   ("部首", ["(Chinese character) radical"]),
   ("纯朴", ["simple", "honest"]),
   ("此致", ["(letter closing) sincerely"]),
   ("打盹儿", ["to doze", "to take a nap"]),
   ("得意扬扬", ["smug", "proud"]),
   ("精彩纷呈", ["spectacular", "full of variety"]),
   ("居于", ["to be located", "to occupy"]),
   ("口哨儿", ["whistle"]),
   ("老伴儿", ["(elderly) spouse"]),
   ("两翼", ["two wings"]),
   ("没准儿", ["maybe", "not sure"]),
   ("磨炼", ["to temper", "to toughen"]),
   ("纳闷儿", ["puzzled", "confused"]),
   ("人缘儿", ["popularity", "good relationships"]),
   ("泰斗", ["leading authority", "master"]),
   ("提心吊胆", ["anxious", "worried"]),
   ("玩意儿", ["thing", "gadget"]),
   ("望远镜", ["telescope"]),
   ("相提并论", ["to mention in the same breath", "to compare"]),
   ("小提琴", ["violin"]),
   ("压轴", ["finale", "highlight"]),
   ("致力于", ["to devote oneself to"]),
   ("捉迷藏", ["hide-and-seek"]),
   ("做证", ["to testify", "to give evidence"]),
   ("做主", ["to decide", "to be in charge"])]

/-- The separator class `[、，,/\s]+` of `pos_to_tags`. -/
def isPosSep (c : Char) : Bool :=
  c = '、' || c = '，' || c = ',' || c = '/' || pyIsSpace c

/-- `pos_to_tags`: split the stripped POS field on separator runs and keep
the nonempty stripped pieces. -/
def pos_to_tags (pos_field : String) : List String :=
  if pos_field = "" then []
  else ((wordsBy isPosSep (stripChars pos_field.data)).map
    (fun w => (⟨stripChars w⟩ : String))).filter (fun w => w ≠ "")

/-- `re.sub(r"\d+$", "", word)`: normalize syllabus disambiguators like
`本1` to `本` by dropping a maximal run of trailing digits. -/
def stripTrailingDigits (s : String) : String :=
  ⟨(s.data.reverse.dropWhile isAsciiDigit).reverse⟩

/-- One CSV row of `master_orig.csv` (the columns the pipeline reads). -/
structure Row where
  id : String
  hanzi : String
  pinyin : String
  band : String
  part : String

/-- The erhua lookup-candidate list of `build_master_json`: the word itself,
then the word with every `儿` removed when it contains one, then the word
with a trailing `儿` dropped when it ends with one. -/
def lookupCandidates (w : String) : List String :=
  [w] ++ (if w.data.contains '儿' then [(⟨w.data.filter (fun c => !(c == '儿'))⟩ : String)] else [])
      ++ (if w.data.getLast? = some '儿' then [(⟨w.data.dropLast⟩ : String)] else [])

/-- The candidate-lookup loop of `build_master_json`: the first candidate for
which `choose_best_entry` returns an entry wins (`if best: break`). -/
def firstBest (cedict : String → List CedictEntry) (pinyin : String) :
    List String → Option CedictEntry
  | [] => none
  | c :: cs =>
    match choose_best_entry (cedict c) pinyin with
    | some e => some e
    | none => firstBest cedict pinyin cs

/-- The per-row body of the `build_master_json` reader loop: strip the
columns, parse the id, apply corrections, strip the trailing disambiguation
digit (keeping the original spelling as a surface form when it differs),
attach CC-CEDICT definitions with cap 3 via the erhua lookup variants, fall
back to `FALLBACK_DEFS` when they come out empty, and build the item. -/
def processRow (cedict : String → List CedictEntry) (row : Row) : Item :=
  let word0 := pstrip row.hanzi
  let pinyin0 := pstrip row.pinyin
  let band := pstrip row.band
  let pos := pstrip row.part
  let hsk_id : Option Nat :=
    if allDigits (pstrip row.id) then some (decValue (pstrip row.id)) else none
  let patched := apply_corrections word0 pinyin0 (pos_to_tags pos)
  let original_word := patched.1
  let word := stripTrailingDigits patched.1
  let defs0 :=
    match firstBest cedict patched.2.1 (lookupCandidates word) with
    | some e => simplify_cedict_definitions e.defs 3
    | none => []
  let defs :=
    if defs0 = [] then (FALLBACK_DEFS.lookup word).getD ((FALLBACK_DEFS.lookup word).getD [])
    else defs0
  { word := word, pinyin := patched.2.1, hsk_band := band,
    hsk_bands := if band ≠ "" then [band] else [],
    hsk_ids := match hsk_id with | some i => [i] | none => [],
    hsk_surfaces := if original_word ≠ "" ∧ original_word ≠ word then [original_word] else [],
    tags := patched.2.2,
    ccedict_definitions := defs }

/-- Insert one item into the insertion-ordered `(word, pinyin) → item` dict:
an existing key is merged in place, a new key is appended. -/
def insertMerged (m : List ((String × String) × Item)) (it : Item) :
    List ((String × String) × Item) :=
  if m.any (fun p => p.1 = (it.word, it.pinyin)) then
    m.map (fun p => if p.1 = (it.word, it.pinyin) then (p.1, merge_items p.2 it) else p)
  else m ++ [((it.word, it.pinyin), it)]

/-- The output sort key of `build_master_json`,
`(hsk_ids[0] or 10^9, word)`, compared as Python compares tuples (strings
lexicographically by code point). -/
def outKeyLe (a b : Item) : Bool :=
  let ia := match a.hsk_ids with | [] => 1000000000 | i :: _ => i
  let ib := match b.hsk_ids with | [] => 1000000000 | i :: _ => i
  decide (ia < ib) || (decide (ia = ib) &&
    (charListLt a.word.data b.word.data || decide (a.word = b.word)))

/-- The row-processing and merging loop of `build_master_json` (everything
after CSV header validation), producing the final stably sorted item list. -/
def build_master_rows (rows : List Row) (cedict : String → List CedictEntry) :
    List Item :=
  sortLe outKeyLe
    ((rows.foldl (fun m row => insertMerged m (processRow cedict row)) []).map Prod.snd)

/-! Generic lemmas about the list utilities of the embedding. -/

theorem mem_insertLe {α : Type} (le : α → α → Bool) (x : α) :
    ∀ (l : List α) (y : α), y ∈ insertLe le x l ↔ y = x ∨ y ∈ l := by
  intro l
  induction l with
  | nil => intro y; simp [insertLe]
  | cons z zs ih =>
    intro y
    simp only [insertLe]
    split
    · simp only [List.mem_cons]
    · simp only [List.mem_cons, ih]
      tauto

theorem mem_sortLe {α : Type} (le : α → α → Bool) :
    ∀ (l : List α) (y : α), y ∈ sortLe le l ↔ y ∈ l := by
  intro l
  induction l with
  | nil => intro y; simp [sortLe]
  | cons z zs ih =>
    intro y
    simp only [sortLe, mem_insertLe, ih, List.mem_cons]

theorem pairwise_insertLe {α : Type} (le : α → α → Bool)
    (htot : ∀ a b, le a b = true ∨ le b a = true)
    (htrans : ∀ a b c, le a b = true → le b c = true → le a c = true)
    (x : α) :
    ∀ {l : List α}, l.Pairwise (fun a b => le a b = true) →
      (insertLe le x l).Pairwise (fun a b => le a b = true) := by
  intro l
  induction l with
  | nil => intro _; simp [insertLe]
  | cons z zs ih =>
    intro hp
    rw [List.pairwise_cons] at hp
    obtain ⟨hz, hzs⟩ := hp
    simp only [insertLe]
    split
    next hle =>
      rw [List.pairwise_cons]
      refine ⟨?_, List.pairwise_cons.mpr ⟨hz, hzs⟩⟩
      intro y hy
      rcases List.mem_cons.mp hy with rfl | hy2
      · exact hle
      · exact htrans _ _ _ hle (hz y hy2)
    next hle =>
      rw [List.pairwise_cons]
      refine ⟨?_, ih hzs⟩
      intro y hy
      rcases (mem_insertLe le x zs y).mp hy with rfl | hy2
      · rcases htot y z with h1 | h1
        · exact absurd h1 hle
        · exact h1
      · exact hz y hy2

theorem pairwise_sortLe {α : Type} (le : α → α → Bool)
    (htot : ∀ a b, le a b = true ∨ le b a = true)
    (htrans : ∀ a b c, le a b = true → le b c = true → le a c = true) :
    ∀ l : List α, (sortLe le l).Pairwise (fun a b => le a b = true) := by
  intro l
  induction l with
  | nil => simp [sortLe]
  | cons z zs ih => exact pairwise_insertLe le htot htrans z ih

theorem map_eq_self_of_fix {α : Type} (f : α → α) :
    ∀ l : List α, (∀ c ∈ l, f c = c) → l.map f = l := by
  intro l
  induction l with
  | nil => intro _; rfl
  | cons c t ih =>
    intro h
    simp only [List.map_cons]
    rw [h c (List.mem_cons_self c t), ih (fun x hx => h x (List.mem_cons_of_mem _ hx))]

theorem dropWhile_eq_self_of_all {p : Char → Bool} :
    ∀ {l : List Char}, (∀ c ∈ l, p c = false) → l.dropWhile p = l := by
  intro l h
  cases l with
  | nil => rfl
  | cons c t => rw [List.dropWhile_cons, h c (List.mem_cons_self c t)]; simp

theorem takeWhile_eq_self_of_all {p : Char → Bool} {l : List Char}
    (h : ∀ c ∈ l, p c = true) : l.takeWhile p = l :=
  List.takeWhile_eq_self_iff.mpr h

theorem stripChars_sublist (l : List Char) : (stripChars l).Sublist l := by
  unfold stripChars dropTrailing
  refine List.Sublist.trans ?_ (@List.dropWhile_sublist _ l pyIsSpace)
  have h1 :=
    (@List.dropWhile_sublist _ ((l.dropWhile pyIsSpace).reverse) pyIsSpace).reverse
  rwa [List.reverse_reverse] at h1

theorem stripChars_subset {l : List Char} : ∀ c ∈ stripChars l, c ∈ l :=
  fun _c hc => (stripChars_sublist l).subset hc

theorem stripChars_eq_self_of_all {l : List Char}
    (h : ∀ c ∈ l, pyIsSpace c = false) : stripChars l = l := by
  unfold stripChars dropTrailing
  rw [dropWhile_eq_self_of_all h]
  rw [dropWhile_eq_self_of_all (fun c hc => h c (List.mem_reverse.mp hc))]
  exact List.reverse_reverse l

theorem dropWhile_eq_self_cons {p : Char → Bool} {c : Char} {t : List Char}
    (h : (c :: t).dropWhile p = c :: t) : p c = false := by
  by_contra hc
  rw [Bool.not_eq_false] at hc
  rw [List.dropWhile_cons, if_pos hc] at h
  have h2 := congrArg List.length h
  have hle := (@List.dropWhile_sublist _ t p).length_le
  simp at h2
  omega

theorem dropWhile_eq_self_of_prefix {p : Char → Bool} {m mp : List Char}
    (hpre : mp <+: m) (hm : m.dropWhile p = m) : mp.dropWhile p = mp := by
  cases mp with
  | nil => rfl
  | cons c t =>
    obtain ⟨r, hr⟩ := hpre
    subst hr
    have hfc : p c = false := dropWhile_eq_self_cons hm
    rw [List.dropWhile_cons, hfc]
    simp

theorem dropTrailing_prefix (p : Char → Bool) (m : List Char) :
    dropTrailing p m <+: m := by
  unfold dropTrailing
  obtain ⟨r, hr⟩ := @List.dropWhile_suffix _ (m.reverse) p
  refine ⟨r.reverse, ?_⟩
  rw [← List.reverse_append, hr, List.reverse_reverse]

theorem stripChars_idem (l : List Char) :
    stripChars (stripChars l) = stripChars l := by
  have hdw : (l.dropWhile pyIsSpace).dropWhile pyIsSpace = l.dropWhile pyIsSpace :=
    List.dropWhile_idempotent pyIsSpace l
  have hpre : dropTrailing pyIsSpace (l.dropWhile pyIsSpace) <+: l.dropWhile pyIsSpace :=
    dropTrailing_prefix _ _
  have h1 := dropWhile_eq_self_of_prefix hpre hdw
  unfold stripChars
  rw [h1]
  unfold dropTrailing
  rw [List.reverse_reverse, List.dropWhile_idempotent]

theorem lookup_none_of_toNat_lt (bound : Nat) {tbl : List (Char × Char)} {c : Char}
    (hc : c.toNat < bound) (hk : ∀ q ∈ tbl, bound ≤ q.1.toNat) :
    tbl.lookup c = none := by
  induction tbl with
  | nil => rfl
  | cons q t ih =>
    obtain ⟨k, v⟩ := q
    have hk1 : bound ≤ k.toNat := hk (k, v) (List.mem_cons_self _ _)
    have hne : (c == k) = false := by
      refine beq_eq_false_iff_ne.mpr ?_
      intro he
      rw [he] at hc
      omega
    simp only [List.lookup, hne]
    exact ih (fun q hq => hk q (List.mem_cons_of_mem _ hq))

theorem pyIsSpace_eq_false {c : Char} (h : 33 ≤ c.toNat) : pyIsSpace c = false := by
  have hs : ∀ d : Char, d.toNat ≤ 32 → ¬ c = d := by
    intro d hd he
    subst he
    omega
  simp only [pyIsSpace, Bool.or_eq_false_iff, decide_eq_false_iff_not]
  exact ⟨⟨⟨⟨⟨hs ' ' (by decide), hs '\t' (by decide)⟩, hs '\n' (by decide)⟩,
    hs '\r' (by decide)⟩, hs '\x0b' (by decide)⟩, hs '\x0c' (by decide)⟩

theorem isLowerAlpha_bounds {c : Char} (h : isLowerAlpha c = true) :
    97 ≤ c.toNat ∧ c.toNat ≤ 122 := by
  simp only [isLowerAlpha, Bool.and_eq_true, decide_eq_true_eq] at h
  exact h

theorem pyLower_fix {c : Char} (h : isLowerAlpha c = true) : pyLower c = c := by
  obtain ⟨h1, h2⟩ := isLowerAlpha_bounds h
  unfold pyLower
  rw [if_neg (by omega)]
  rw [lookup_none_of_toNat_lt 192 (by omega) (by decide)]
  rfl

theorem toneMap_fix {c : Char} (h : isLowerAlpha c = true) : toneMap c = c := by
  obtain ⟨h1, h2⟩ := isLowerAlpha_bounds h
  unfold toneMap
  rw [lookup_none_of_toNat_lt 224 (by omega) (by decide)]
  rfl

theorem isAsciiDigit_eq_false_of_lower {c : Char} (h : isLowerAlpha c = true) :
    isAsciiDigit c = false := by
  obtain ⟨h1, _h2⟩ := isLowerAlpha_bounds h
  simp only [isAsciiDigit, Bool.and_eq_false_iff, decide_eq_false_iff_not]
  right
  omega

/-! Claims C7, C8, C6, C2. -/

/-- Claim C7: band token canonicalization is idempotent — canonicalizing an
already canonical token returns it unchanged — and concretely
`"1(4)" ↦ "1"`, `"2(7-9)" ↦ "2"`, `"7-9" ↦ "7-9"`. -/
theorem normalize_band_token_idempotent :
    (∀ tok : String,
        normalize_band_token (normalize_band_token tok) = normalize_band_token tok) ∧
    normalize_band_token "1(4)" = "1" ∧
    normalize_band_token "2(7-9)" = "2" ∧
    normalize_band_token "7-9" = "7-9" := by
  refine ⟨?_, by decide, by decide, by decide⟩
  intro tok
  unfold normalize_band_token
  have hq : ∀ c ∈ stripChars (tok.data.takeWhile (fun c => !isOpenParen c)),
      (fun c => !isOpenParen c) c = true :=
    fun c hc =>
      @List.mem_takeWhile_imp _ (fun c => !isOpenParen c) tok.data c
        (stripChars_subset c hc)
  rw [show (⟨stripChars (tok.data.takeWhile (fun c => !isOpenParen c))⟩ : String).data =
      stripChars (tok.data.takeWhile (fun c => !isOpenParen c)) from rfl]
  rw [takeWhile_eq_self_of_all hq, stripChars_idem]

/-- Every character of a normalized pinyin string is a lowercase ASCII
letter (the final `[^a-zv]` deletion guarantees this). -/
theorem normalize_pinyin_chars {p : String} :
    ∀ c ∈ (normalize_pinyin_for_match p).data, isLowerAlpha c = true := by
  intro c hc
  have hc2 := (List.mem_filter.mp hc).2
  rcases (by simpa using hc2 : isLowerAlpha c = true ∨ c = 'v') with h | h
  · exact h
  · subst h
    decide

/-- Strings consisting of lowercase ASCII letters are fixed points of
`normalize_pinyin_for_match`. -/
theorem normalize_pinyin_fix {s : String}
    (h : ∀ c ∈ s.data, isLowerAlpha c = true) :
    normalize_pinyin_for_match s = s := by
  unfold normalize_pinyin_for_match
  rw [stripChars_eq_self_of_all (fun c hc => by
    have := (isLowerAlpha_bounds (h c hc)).1
    exact pyIsSpace_eq_false (by omega))]
  rw [map_eq_self_of_fix pyLower s.data (fun c hc => pyLower_fix (h c hc))]
  rw [map_eq_self_of_fix toneMap s.data (fun c hc => toneMap_fix (h c hc))]
  have h1 : s.data.filter (fun c => !isAsciiDigit c) = s.data :=
    List.filter_eq_self.mpr (fun c hc => by
      rw [isAsciiDigit_eq_false_of_lower (h c hc)]; rfl)
  rw [h1]
  have h2 : s.data.filter (fun c => isLowerAlpha c || c = 'v') = s.data :=
    List.filter_eq_self.mpr (fun c hc => by rw [h c hc]; rfl)
  rw [h2]

/-- Claim C8: pronunciation normalization for matching is idempotent and
case- and diacritic-insensitive: `normalize("Tí") = normalize("ti2") = "ti"`. -/
theorem normalize_pinyin_idempotent :
    (∀ p : String, normalize_pinyin_for_match (normalize_pinyin_for_match p) =
        normalize_pinyin_for_match p) ∧
    normalize_pinyin_for_match "Tí" = normalize_pinyin_for_match "ti2" ∧
    normalize_pinyin_for_match "Tí" = "ti" := by
  refine ⟨fun p => normalize_pinyin_fix normalize_pinyin_chars, by decide, by decide⟩

/-- Claim C6: the integer bands of the system (levels 1–6) rank at their
numeric value, the composite band `7-9` ranks strictly above all of them
(so it sorts last), and in particular
`rank("7-9") > rank("6") > rank("1")`. -/
theorem band_rank_order (n : Nat) (h1 : 1 ≤ n) (h6 : n ≤ 6) :
    (band_rank (Nat.repr n) = n ∧ band_rank "7-9" > band_rank (Nat.repr n)) ∧
    band_rank "7-9" > band_rank "6" ∧ band_rank "6" > band_rank "1" := by
  refine ⟨?_, by decide, by decide⟩
  interval_cases n <;> exact ⟨by decide, by decide⟩

theorem band_rank_order_witness :
    (band_rank (Nat.repr 6) = 6 ∧ band_rank "7-9" > band_rank (Nat.repr 6)) ∧
    band_rank "7-9" > band_rank "6" ∧ band_rank "6" > band_rank "1" :=
  band_rank_order 6 (by decide) (by decide)

/-- Claim C2: merging the two records `("本1", band 1, "běn")` and
`("本2", band 2, "běn")` produces exactly one item with word `"本"`, band
set `["1", "2"]`, canonical band `"1"`, and surface forms
`["本1", "本2"]`: the trailing disambiguation digit is stripped before
grouping and the decorated spellings are kept as surface forms. -/
theorem merge_ben_disambiguated_records :
    build_master_rows
        [⟨"", "本1", "běn", "1", ""⟩, ⟨"", "本2", "běn", "2", ""⟩] (fun _ => []) =
      [{ word := "本", pinyin := "běn", hsk_band := "1", hsk_bands := ["1", "2"],
         hsk_ids := [], hsk_surfaces := ["本1", "本2"], tags := [],
         ccedict_definitions := [] }] := by
  decide

/-! Claim C3: the canonical-band invariant. -/

/-- The invariant of the spec: `canonicalBand` is a member of `allBands` of
minimal rank (the membership part is stated for a nonempty band set; the
rank part is vacuous for an empty one). -/
def bandInvariant (it : Item) : Prop :=
  (it.hsk_bands ≠ [] → it.hsk_band ∈ it.hsk_bands) ∧
    ∀ b ∈ it.hsk_bands, band_rank it.hsk_band ≤ band_rank b

theorem sortLe_rank_head_min {l : List String} {hd : String} {t : List String}
    (heq : sortLe (fun a b => decide (band_rank a ≤ band_rank b)) l = hd :: t) :
    ∀ b ∈ hd :: t, band_rank hd ≤ band_rank b := by
  have hp := pairwise_sortLe (fun a b => decide (band_rank a ≤ band_rank b))
    (fun a b => by
      rcases Nat.le_total (band_rank a) (band_rank b) with hle | hle
      · exact Or.inl (decide_eq_true hle)
      · exact Or.inr (decide_eq_true hle))
    (fun a b c hab hbc =>
      decide_eq_true (Nat.le_trans (of_decide_eq_true hab) (of_decide_eq_true hbc)))
    l
  rw [heq, List.pairwise_cons] at hp
  intro b hb
  rcases List.mem_cons.mp hb with rfl | hb2
  · exact Nat.le_refl _
  · exact of_decide_eq_true (hp.1 b hb2)

/-- Any item whose band list is a `normalize_band_list` output and whose
canonical band is its head (with default `""`) satisfies the invariant. -/
theorem bandInvariant_of_normalized (it : Item) (src : List String)
    (hb : it.hsk_bands = normalize_band_list src)
    (hh : it.hsk_band = it.hsk_bands.headD "") : bandInvariant it := by
  cases hnb : it.hsk_bands with
  | nil =>
    refine ⟨fun hne => absurd hnb hne, fun b hb2 => ?_⟩
    rw [hnb] at hb2
    cases hb2
  | cons hd t =>
    rw [hnb] at hh
    simp only [List.headD_cons] at hh
    have heq : sortLe (fun a b => decide (band_rank a ≤ band_rank b))
        (dedupKeepFirst ((src.map pstrip).filter (fun b => b ≠ ""))) = hd :: t := by
      rw [← normalize_band_list, ← hb, hnb]
    refine ⟨fun _ => ?_, fun b hbm => ?_⟩
    · rw [hh, hnb]; exact List.mem_cons_self _ _
    · rw [hh]
      rw [hnb] at hbm
      exact sortLe_rank_head_min heq b hbm

/-- `merge_items` (re)establishes the invariant unconditionally. -/
theorem merge_items_bandInvariant (a b : Item) : bandInvariant (merge_items a b) :=
  bandInvariant_of_normalized _ _ rfl rfl

/-- Any item whose band list is `[band]` for a nonempty canonical band and
`[]` otherwise satisfies the invariant; this is the shape `processRow`
produces. -/
theorem bandInvariant_single (it : Item)
    (hb : it.hsk_bands = if it.hsk_band ≠ "" then [it.hsk_band] else []) :
    bandInvariant it := by
  by_cases h : it.hsk_band = ""
  · rw [if_neg (by simp [h])] at hb
    exact ⟨fun hne => absurd hb hne, fun b hbm => by rw [hb] at hbm; cases hbm⟩
  · rw [if_pos h] at hb
    refine ⟨fun _ => ?_, fun b hbm => ?_⟩
    · rw [hb]; exact List.mem_cons_self _ _
    · rw [hb] at hbm
      rcases List.mem_singleton.mp hbm with rfl
      exact Nat.le_refl _

theorem processRow_bandInvariant (cedict : String → List CedictEntry) (row : Row) :
    bandInvariant (processRow cedict row) :=
  bandInvariant_single _ rfl

theorem foldl_insertMerged_invariant (cedict : String → List CedictEntry) :
    ∀ (rows : List Row) (m : List ((String × String) × Item)),
      (∀ q ∈ m, bandInvariant q.2) →
      ∀ q ∈ rows.foldl (fun m row => insertMerged m (processRow cedict row)) m,
        bandInvariant q.2 := by
  intro rows
  induction rows with
  | nil => intro m hm q hq; exact hm q hq
  | cons r rs ih =>
    intro m hm q hq
    simp only [List.foldl_cons] at hq
    refine ih _ ?_ q hq
    intro q2 hq2
    unfold insertMerged at hq2
    split at hq2
    · rcases List.mem_map.mp hq2 with ⟨q0, hq0, heq⟩
      by_cases hkey : q0.1 = ((processRow cedict r).word, (processRow cedict r).pinyin)
      · rw [if_pos hkey] at heq
        rw [← heq]
        exact merge_items_bandInvariant _ _
      · rw [if_neg hkey] at heq
        rw [← heq]
        exact hm q0 hq0
    · rcases List.mem_append.mp hq2 with h1 | h1
      · exact hm q2 h1
      · rcases List.mem_singleton.mp h1 with rfl
        exact processRow_bandInvariant cedict r

/-- Claim C3: every item produced by the merge engine has a canonical band
that is a lowest-ranked member of its band set, and every merge of two items
sharing a `(word, pinyin)` key (re)establishes this invariant. -/
theorem canonical_band_is_lowest :
    (∀ a b : Item, bandInvariant (merge_items a b)) ∧
    (∀ (rows : List Row) (cedict : String → List CedictEntry),
      ∀ it ∈ build_master_rows rows cedict, bandInvariant it) := by
  refine ⟨merge_items_bandInvariant, ?_⟩
  intro rows cedict it hit
  unfold build_master_rows at hit
  rw [mem_sortLe] at hit
  rcases List.mem_map.mp hit with ⟨q, hq, heq⟩
  rw [← heq]
  exact foldl_insertMerged_invariant cedict rows [] (fun q2 hq2 => by cases hq2) q hq

theorem canonical_band_is_lowest_witness :
    bandInvariant
      { word := "本", pinyin := "běn", hsk_band := "1", hsk_bands := ["1", "2"],
        hsk_ids := [], hsk_surfaces := ["本1", "本2"], tags := [],
        ccedict_definitions := [] } :=
  canonical_band_is_lowest.2
    [⟨"", "本1", "běn", "1", ""⟩, ⟨"", "本2", "běn", "2", ""⟩] (fun _ => [])
    _ (by decide)

/-! Claims C1 and C10: the entry disambiguator. -/

theorem lexLt3_irrefl (a : Int × Int × Int) : ¬ lexLt3 a a := by
  unfold lexLt3
  omega

theorem lexLt3_asymm {a b : Int × Int × Int} (h : lexLt3 a b) : ¬ lexLt3 b a := by
  unfold lexLt3 at *
  omega

/-- From `b < x` and `x ≤ r` (as the failure of `r < x`), conclude `b < r`. -/
theorem lexLt3_of_lt_of_not_lt {b x r : Int × Int × Int}
    (h1 : lexLt3 b x) (h2 : ¬ lexLt3 r x) : lexLt3 b r := by
  unfold lexLt3 at *
  omega

/-- From `x ≤ b` (as the failure of `b < x`) and `b < r`, conclude `x < r`. -/
theorem lexLt3_of_not_lt_of_lt {x b r : Int × Int × Int}
    (h1 : ¬ lexLt3 b x) (h2 : lexLt3 b r) : lexLt3 x r := by
  unfold lexLt3 at *
  omega

/-- The selection property of Python `max` with a key: the result is the
first element attaining the maximal key — every element strictly before it
scores strictly lower, and no element at all scores strictly higher. -/
theorem maxByFirst_spec {α : Type} (key : α → Int × Int × Int) :
    ∀ (l : List α) (b : α),
      ∃ l1 l2, b :: l = l1 ++ maxByFirst key b l :: l2 ∧
        (∀ x ∈ l1, lexLt3 (key x) (key (maxByFirst key b l))) ∧
        (∀ x ∈ b :: l, ¬ lexLt3 (key (maxByFirst key b l)) (key x)) := by
  intro l
  induction l with
  | nil =>
    intro b
    refine ⟨[], [], rfl, by simp, ?_⟩
    intro x hx
    rcases List.mem_singleton.mp hx with rfl
    exact lexLt3_irrefl _
  | cons x xs ih =>
    intro b
    simp only [maxByFirst]
    split
    next hlt =>
      obtain ⟨l1, l2, heq, hl1, hmax⟩ := ih x
      have hbr : lexLt3 (key b) (key (maxByFirst key x xs)) :=
        lexLt3_of_lt_of_not_lt hlt (hmax x (List.mem_cons_self _ _))
      refine ⟨b :: l1, l2, ?_, ?_, ?_⟩
      · rw [List.cons_append, ← heq]
      · intro y hy
        rcases List.mem_cons.mp hy with rfl | hy2
        · exact hbr
        · exact hl1 y hy2
      · intro y hy
        rcases List.mem_cons.mp hy with rfl | hy2
        · exact lexLt3_asymm hbr
        · exact hmax y hy2
    next hlt =>
      obtain ⟨l1, l2, heq, hl1, hmax⟩ := ih b
      cases l1 with
      | nil =>
        simp only [List.nil_append] at heq
        have h1 : maxByFirst key b xs = b := (List.cons.inj heq.symm).1
        refine ⟨[], x :: xs, ?_, by simp, ?_⟩
        · rw [List.nil_append, h1]
        · intro y hy
          rcases List.mem_cons.mp hy with rfl | hy2
          · exact hmax y (List.mem_cons_self _ _)
          · rcases List.mem_cons.mp hy2 with rfl | hy3
            · rw [h1]; exact hlt
            · exact hmax y (List.mem_cons_of_mem _ hy3)
      | cons h1 t1 =>
        rw [List.cons_append] at heq
        have hb1 : b = h1 := (List.cons.inj heq).1
        have hxs : xs = t1 ++ maxByFirst key b xs :: l2 := (List.cons.inj heq).2
        subst hb1
        have hltbr : lexLt3 (key b) (key (maxByFirst key b xs)) :=
          hl1 b (List.mem_cons_self _ _)
        refine ⟨b :: x :: t1, l2, ?_, ?_, ?_⟩
        · rw [List.cons_append, List.cons_append, ← hxs]
        · intro y hy
          rcases List.mem_cons.mp hy with rfl | hy2
          · exact hltbr
          · rcases List.mem_cons.mp hy2 with rfl | hy3
            · exact lexLt3_of_not_lt_of_lt hlt hltbr
            · exact hl1 y (List.mem_cons_of_mem _ hy3)
        · intro y hy
          rcases List.mem_cons.mp hy with rfl | hy2
          · exact hmax y (List.mem_cons_self _ _)
          · rcases List.mem_cons.mp hy2 with rfl | hy3
            · exact fun hc => hmax b (List.mem_cons_self _ _)
                (lexLt3_of_lt_of_not_lt hc hlt)
            · exact hmax y (by rw [hxs]; exact List.mem_cons_of_mem _ (by
                rw [← hxs]; exact hy3))

/-- The selection property the spec ascribes to the disambiguator on a
candidate list: the result is a member, no candidate scores strictly higher
on the quality tuple, and every candidate before it in source order scores
strictly lower (ties keep the first candidate encountered). -/
def firstMaxOf (best : CedictEntry) (candidates : List CedictEntry) : Prop :=
  best ∈ candidates ∧
  (∀ e ∈ candidates, ¬ lexLt3 (entry_quality_score best) (entry_quality_score e)) ∧
  ∃ l1 l2, candidates = l1 ++ best :: l2 ∧
    ∀ e ∈ l1, lexLt3 (entry_quality_score e) (entry_quality_score best)

/-- The candidate restriction step, stated in the words of the spec: the
entries whose normalized pronunciation equals the normalized target exactly,
or all entries when that filtered set is empty. -/
def pinyinCandidates (entries : List CedictEntry) (hsk_pinyin : String) :
    List CedictEntry :=
  let matched := entries.filter (fun e =>
    normalize_pinyin_for_match e.pinyin_raw == normalize_pinyin_for_match hsk_pinyin)
  if matched.isEmpty then entries else matched

theorem pyMax_firstMax (c : CedictEntry) (crest : List CedictEntry) :
    ∃ best, pyMax entry_quality_score (c :: crest) = some best ∧
      firstMaxOf best (c :: crest) := by
  obtain ⟨l1, l2, heq, hl1, hmax⟩ := maxByFirst_spec entry_quality_score crest c
  refine ⟨maxByFirst entry_quality_score c crest, rfl, ?_, hmax, l1, l2, heq, hl1⟩
  rw [heq]
  exact List.mem_append.mpr (Or.inr (List.mem_cons_self _ _))

/-- Claim C1: a singleton entry list is returned unconditionally; the quality
score of an entry with usable senses is the tuple (usable count minus
low-value-flagged count, negated low-value count, negated length of the first
usable sense); and for two or more entries with a target that does not
normalize to the empty string, the chosen entry is the first
quality-score-maximal element of the candidate set, where candidates are the
exact normalized-pronunciation matches, or all entries when no entry
matches. -/
theorem choose_best_entry_spec :
    (∀ (e : CedictEntry) (p : String), choose_best_entry [e] p = some e) ∧
    (∀ e : CedictEntry, simplify_cedict_definitions e.defs 8 ≠ [] →
      entry_quality_score e =
        (((simplify_cedict_definitions e.defs 8).length : Int) -
            (((simplify_cedict_definitions e.defs 8).countP (fun g =>
              LOW_VALUE_PATTERNS.any (fun q =>
                containsSub q.data (g.data.map pyLower)))) : Int),
          -((((simplify_cedict_definitions e.defs 8).countP (fun g =>
              LOW_VALUE_PATTERNS.any (fun q =>
                containsSub q.data (g.data.map pyLower)))) : Int)),
          -((((simplify_cedict_definitions e.defs 8).headD "").length : Int)))) ∧
    (∀ (entries : List CedictEntry) (hsk_pinyin : String),
      2 ≤ entries.length → normalize_pinyin_for_match hsk_pinyin ≠ "" →
      ∃ best, choose_best_entry entries hsk_pinyin = some best ∧
        firstMaxOf best (pinyinCandidates entries hsk_pinyin)) := by
  refine ⟨fun e p => rfl, ?_, ?_⟩
  · intro e he
    simp only [entry_quality_score]
    rw [if_neg (by simpa using he)]
  · intro entries hsk_pinyin h2 ht
    cases entries with
    | nil => simp at h2
    | cons e1 tl =>
      cases tl with
      | nil => simp at h2
      | cons e2 rest =>
        simp only [choose_best_entry, pinyinCandidates]
        rw [if_neg ht]
        by_cases hm : (List.filter (fun e =>
            normalize_pinyin_for_match e.pinyin_raw ==
              normalize_pinyin_for_match hsk_pinyin) (e1 :: e2 :: rest)).isEmpty
        · rw [if_pos hm]
          exact pyMax_firstMax e1 (e2 :: rest)
        · rw [if_neg hm]
          cases hme : List.filter (fun e =>
              normalize_pinyin_for_match e.pinyin_raw ==
                normalize_pinyin_for_match hsk_pinyin) (e1 :: e2 :: rest) with
          | nil => rw [hme] at hm; exact absurd rfl hm
          | cons c crest => exact pyMax_firstMax c crest

theorem choose_best_entry_spec_witness :
    ∃ best,
      choose_best_entry
          [⟨"提", "ti2", ["to carry"]⟩, ⟨"提", "di1", ["to guard against"]⟩] "tí" =
        some best ∧
      firstMaxOf best
        (pinyinCandidates
          [⟨"提", "ti2", ["to carry"]⟩, ⟨"提", "di1", ["to guard against"]⟩] "tí") :=
  choose_best_entry_spec.2.2
    [⟨"提", "ti2", ["to carry"]⟩, ⟨"提", "di1", ["to guard against"]⟩] "tí"
    (by decide) (by decide)

/-- Claim C10: when the target pronunciation normalizes to the empty string,
the disambiguator skips the exact-pronunciation filter entirely — even when
entries also have an empty normalized pronunciation — and selects the first
quality-score-maximal entry among all entries. -/
theorem choose_best_entry_empty_target (entries : List CedictEntry)
    (hsk_pinyin : String) (h2 : 2 ≤ entries.length)
    (ht : normalize_pinyin_for_match hsk_pinyin = "") :
    ∃ best, choose_best_entry entries hsk_pinyin = some best ∧
      firstMaxOf best entries := by
  cases entries with
  | nil => simp at h2
  | cons e1 tl =>
    cases tl with
    | nil => simp at h2
    | cons e2 rest =>
      simp only [choose_best_entry]
      rw [if_pos ht]
      exact pyMax_firstMax e1 (e2 :: rest)

theorem choose_best_entry_empty_target_witness :
    ∃ best,
      choose_best_entry
          [⟨"一", "123", ["one"]⟩, ⟨"一", "yi1", ["single; alone"]⟩] "42" =
        some best ∧
      firstMaxOf best [⟨"一", "123", ["one"]⟩, ⟨"一", "yi1", ["single; alone"]⟩] :=
  choose_best_entry_empty_target
    [⟨"一", "123", ["one"]⟩, ⟨"一", "yi1", ["single; alone"]⟩] "42"
    (by decide) (by decide)

/-! Claim C9: the sense simplifier. The cleaning stages never invent
characters other than the collapsing space, so delimiters in the output can
only be inherited from the input; the `;` delimiter is always split away,
while `/` is never removed. -/

theorem splitOnChar_ne_nil {sep : Char} (l : List Char) :
    splitOnChar sep l ≠ [] := by
  cases l with
  | nil => simp [splitOnChar]
  | cons a t =>
    simp only [splitOnChar]
    split
    · simp
    · cases hsp : splitOnChar sep t <;> simp

theorem splitOnChar_mem {sep : Char} :
    ∀ {l part : List Char}, part ∈ splitOnChar sep l →
      ∀ c ∈ part, c ∈ l ∧ c ≠ sep := by
  intro l
  induction l with
  | nil =>
    intro part hp c hc
    simp only [splitOnChar, List.mem_singleton] at hp
    subst hp
    cases hc
  | cons a t ih =>
    intro part hp c hc
    simp only [splitOnChar] at hp
    split at hp
    next ha =>
      rcases List.mem_cons.mp hp with rfl | hp2
      · cases hc
      · have := ih hp2 c hc
        exact ⟨List.mem_cons_of_mem _ this.1, this.2⟩
    next ha =>
      split at hp
      next h r hsp =>
        rcases List.mem_cons.mp hp with rfl | hp2
        · rcases List.mem_cons.mp hc with rfl | hc2
          · exact ⟨List.mem_cons_self _ _, ha⟩
          · have := ih (hsp ▸ List.mem_cons_self h r) c hc2
            exact ⟨List.mem_cons_of_mem _ this.1, this.2⟩
        · have := ih (hsp ▸ List.mem_cons_of_mem h hp2) c hc
          exact ⟨List.mem_cons_of_mem _ this.1, this.2⟩
      next hsp =>
        rcases List.mem_singleton.mp hp with rfl
        rcases List.mem_singleton.mp hc with rfl
        exact ⟨List.mem_cons_self _ _, ha⟩

theorem stripLeadingParenTag_subset {l : List Char} :
    ∀ c ∈ stripLeadingParenTag l, c ∈ l := by
  intro c hc
  unfold stripLeadingParenTag at hc
  split at hc
  next rest =>
    split at hc
    next tail hat =>
      have h1 : c ∈ tail := (List.dropWhile_sublist pyIsSpace).subset hc
      exact List.mem_cons_of_mem _ (afterChar_subset hat c h1)
    next => exact hc
  next => exact hc

theorem removeBracketsF_subset :
    ∀ (fuel : Nat) (l : List Char), ∀ c ∈ removeBracketsF fuel l, c ∈ l := by
  intro fuel
  induction fuel with
  | zero => intro l c hc; exact hc
  | succ f ih =>
    intro l c hc
    cases l with
    | nil => cases hc
    | cons a rest =>
      simp only [removeBracketsF] at hc
      split at hc
      · split at hc
        · rcases List.mem_cons.mp hc with rfl | hc2
          · exact List.mem_cons_self _ _
          · exact List.mem_cons_of_mem _ (ih rest c hc2)
        · split at hc
          next tail hat =>
            exact List.mem_cons_of_mem _ (afterChar_subset hat c (ih tail c hc))
          next =>
            rcases List.mem_cons.mp hc with rfl | hc2
            · exact List.mem_cons_self _ _
            · exact List.mem_cons_of_mem _ (ih rest c hc2)
      · rcases List.mem_cons.mp hc with rfl | hc2
        · exact List.mem_cons_self _ _
        · exact List.mem_cons_of_mem _ (ih rest c hc2)

theorem removeParensF_subset :
    ∀ (fuel : Nat) (l : List Char), ∀ c ∈ removeParensF fuel l, c ∈ l := by
  intro fuel
  induction fuel with
  | zero => intro l c hc; exact hc
  | succ f ih =>
    intro l c hc
    cases l with
    | nil => cases hc
    | cons a rest =>
      simp only [removeParensF] at hc
      split at hc
      · split at hc
        next tail hat =>
          exact List.mem_cons_of_mem _ (afterChar_subset hat c (ih tail c hc))
        next =>
          rcases List.mem_cons.mp hc with rfl | hc2
          · exact List.mem_cons_self _ _
          · exact List.mem_cons_of_mem _ (ih rest c hc2)
      · rcases List.mem_cons.mp hc with rfl | hc2
        · exact List.mem_cons_self _ _
        · exact List.mem_cons_of_mem _ (ih rest c hc2)

theorem collapseWs_subset :
    ∀ (l : List Char), ∀ c ∈ collapseWs l, c ∈ l ∨ c = ' ' := by
  intro l
  induction l with
  | nil => intro c hc; cases hc
  | cons a t ih =>
    intro c hc
    simp only [collapseWs] at hc
    split at hc
    · split at hc
      · rcases List.mem_singleton.mp hc with rfl
        exact Or.inr rfl
      · split at hc
        · rcases ih c hc with h | h
          · exact Or.inl (List.mem_cons_of_mem _ h)
          · exact Or.inr h
        · rcases List.mem_cons.mp hc with rfl | hc2
          · exact Or.inr rfl
          · rcases ih c hc2 with h | h
            · exact Or.inl (List.mem_cons_of_mem _ h)
            · exact Or.inr h
    · rcases List.mem_cons.mp hc with rfl | hc2
      · exact Or.inl (List.mem_cons_self _ _)
      · rcases ih c hc2 with h | h
        · exact Or.inl (List.mem_cons_of_mem _ h)
        · exact Or.inr h

theorem dedupKeepFirst_subset {α : Type} [DecidableEq α] :
    ∀ (l : List α), ∀ x ∈ dedupKeepFirst l, x ∈ l := by
  intro l
  induction l with
  | nil => intro x hx; cases hx
  | cons a t ih =>
    intro x hx
    simp only [dedupKeepFirst] at hx
    rcases List.mem_cons.mp hx with rfl | hx2
    · exact List.mem_cons_self _ _
    · exact List.mem_cons_of_mem _ (ih x (List.mem_filter.mp hx2).1)

/-- The per-candidate cleaning keeps only characters of the candidate, up to
the space introduced by whitespace collapsing. -/
theorem cleanGloss_chars {d g : List Char} (h : cleanGloss d = some g) :
    ∀ c ∈ g, c ∈ d ∨ c = ' ' := by
  intro c hc
  simp only [cleanGloss] at h
  split at h
  · exact absurd h (by simp)
  · split at h
    · exact absurd h (by simp)
    · split at h
      · exact absurd h (by simp)
      · split at h
        · exact absurd h (by simp)
        · split at h
          · exact absurd h (by simp)
          · split at h
            · exact absurd h (by simp)
            · injection h with hg
              subst hg
              have hc1 := stripChars_subset c hc
              rcases collapseWs_subset _ c hc1 with hc2 | hc2
              · have hc3 := stripChars_subset c hc2
                have hc4 := (List.mem_filter.mp hc3).1
                have hc5 := stripChars_subset c hc4
                have hc6 := removeParensF_subset _ _ c hc5
                have hc7 := stripChars_subset c hc6
                have hc8 := removeBracketsF_subset _ _ c hc7
                have hc9 := stripChars_subset c hc8
                have hc10 := stripLeadingParenTag_subset c hc9
                exact Or.inl (stripChars_subset c hc10)
              · exact Or.inr hc2

/-- Characters of a simplified sense come from some raw input sense, are
never the split delimiter `;`, and otherwise can only be the space
introduced by whitespace collapsing. -/
theorem simplify_chars {defs : List String} {k : Nat} {s : String}
    (hs : s ∈ simplify_cedict_definitions defs k) :
    ∀ c ∈ s.data, (c ≠ ';' ∧ ∃ d ∈ defs, c ∈ d.data) ∨ c = ' ' := by
  intro c hc
  simp only [simplify_cedict_definitions] at hs
  rcases List.mem_map.mp hs with ⟨g, hg, hgs⟩
  have hcg : c ∈ g := by rw [← hgs] at hc; exact hc
  have hg1 : g ∈ sortLe (fun a b => !decide (lexLt3 (glossScore a) (glossScore b)))
      (dedupKeepFirst ((expandDefs defs).filterMap cleanGloss)) :=
    (List.take_sublist _ _).subset hg
  have hg2 := (mem_sortLe _ _ g).mp hg1
  have hg3 := dedupKeepFirst_subset _ g hg2
  rcases List.mem_filterMap.mp hg3 with ⟨d0, hd0, hclean⟩
  rcases cleanGloss_chars hclean c hcg with hcd | hsp
  · rcases List.mem_flatMap.mp hd0 with ⟨dstr, hdstr, hparts⟩
    rcases List.mem_filter.mp hparts with ⟨hmap, _hne⟩
    rcases List.mem_map.mp hmap with ⟨part, hpart, hstrip⟩
    have hcpart : c ∈ part := by
      rw [← hstrip] at hcd
      exact stripChars_subset c hcd
    have hmem := splitOnChar_mem hpart c hcpart
    exact Or.inl ⟨hmem.2, dstr, (List.mem_filter.mp hdstr).1, hmem.1⟩
  · exact Or.inr hsp

/-- Claim C9, amended: the concrete example behaves as specified and the
output length never exceeds the cap; no output string contains the raw `;`
delimiter; and no output string contains `/` unless some input sense already
contained `/` (the cleaning never removes `/`; in the pipeline the raw
senses come from splitting dictionary lines on `/` and so contain none). -/
theorem simplify_cedict_definitions_props :
    simplify_cedict_definitions ["to love; to be fond of", "surname Ai"] 2 =
      ["to love", "to be fond of"] ∧
    (∀ (defs : List String) (k : Nat),
      (simplify_cedict_definitions defs k).length ≤ k) ∧
    (∀ (defs : List String) (k : Nat), ∀ s ∈ simplify_cedict_definitions defs k,
      ';' ∉ s.data) ∧
    (∀ (defs : List String) (k : Nat), (∀ d ∈ defs, '/' ∉ d.data) →
      ∀ s ∈ simplify_cedict_definitions defs k, '/' ∉ s.data) := by
  refine ⟨by decide, ?_, ?_, ?_⟩
  · intro defs k
    simp only [simplify_cedict_definitions, List.length_map]
    exact List.length_take_le _ _
  · intro defs k s hs hmem
    rcases simplify_chars hs _ hmem with ⟨hne, _⟩ | hsp
    · exact hne rfl
    · exact absurd hsp (by decide)
  · intro defs k hdefs s hs hmem
    rcases simplify_chars hs _ hmem with ⟨_, d, hd, hcd⟩ | hsp
    · exact hdefs d hd hcd
    · exact absurd hsp (by decide)

/-- Counterexample to claim C9 as stated: a raw sense containing the `/`
delimiter survives simplification verbatim, so the output can contain `/`. -/
theorem simplify_keeps_slash :
    simplify_cedict_definitions ["ab/cd"] 3 = ["ab/cd"] ∧
      '/' ∈ ("ab/cd" : String).data := by
  decide

theorem simplify_cedict_definitions_props_witness :
    ';' ∉ ("to love" : String).data ∧ '/' ∉ ("to love" : String).data :=
  ⟨simplify_cedict_definitions_props.2.2.1
      ["to love; to be fond of", "surname Ai"] 2 "to love" (by decide),
    simplify_cedict_definitions_props.2.2.2
      ["to love; to be fond of", "surname Ai"] 2 (by decide) "to love" (by decide)⟩

/-! Claims C4 and C5: the record reconstruction parser. -/

theorem hanziPhaseF_snd_ge (tokens : List String) :
    ∀ (fuel i : Nat), i ≤ (hanziPhaseF tokens fuel i).2 := by
  intro fuel
  induction fuel with
  | zero => intro i; exact Nat.le_refl i
  | succ f ih =>
    intro i
    simp only [hanziPhaseF]
    split
    · split
      · exact Nat.le_trans (Nat.le_succ i) (ih (i + 1))
      · split
        · exact Nat.le_trans (Nat.le_succ i) (ih (i + 1))
        · exact Nat.le_refl i
    · exact Nat.le_refl i

theorem pinyinPhaseF_snd_ge (tokens : List String) :
    ∀ (fuel i : Nat), i ≤ (pinyinPhaseF tokens fuel i).2 := by
  intro fuel
  induction fuel with
  | zero => intro i; exact Nat.le_refl i
  | succ f ih =>
    intro i
    simp only [pinyinPhaseF]
    split
    · split
      · exact Nat.le_refl i
      · split
        · exact Nat.le_refl i
        · split
          · exact Nat.le_trans (Nat.le_succ i) (ih (i + 1))
          · split
            · exact Nat.le_trans (Nat.le_succ i) (ih (i + 1))
            · exact Nat.le_refl i
    · exact Nat.le_refl i

theorem posPhaseF_snd_ge (tokens : List String) :
    ∀ (fuel i : Nat), i ≤ (posPhaseF tokens fuel i).2 := by
  intro fuel
  induction fuel with
  | zero => intro i; exact Nat.le_refl i
  | succ f ih =>
    intro i
    simp only [posPhaseF]
    split
    · split
      · exact Nat.le_refl i
      · split
        · exact Nat.le_trans (Nat.le_succ i) (ih (i + 1))
        · split
          · exact Nat.le_trans (Nat.le_succ i) (ih (i + 1))
          · exact Nat.le_refl i
    · exact Nat.le_refl i

theorem hanziPhase_snd_ge (tokens : List String) (i : Nat) :
    i ≤ (hanziPhase tokens i).2 :=
  hanziPhaseF_snd_ge tokens _ i

theorem pinyinPhase_snd_ge (tokens : List String) (i : Nat) :
    i ≤ (pinyinPhase tokens i).2 :=
  pinyinPhaseF_snd_ge tokens _ i

theorem posPhase_snd_ge (tokens : List String) (i : Nat) :
    i ≤ (posPhase tokens i).2 :=
  posPhaseF_snd_ge tokens _ i

theorem next_starts_entry_lt {tokens : List String} {i : Nat}
    (h : next_starts_entry tokens i = true) : i + 1 < tokens.length := by
  unfold next_starts_entry at h
  cases hdrop : tokens.drop i with
  | nil => rw [hdrop] at h; cases h
  | cons a tl =>
    cases tl with
    | nil => rw [hdrop] at h; cases h
    | cons b tl2 =>
      have hlen := congrArg List.length hdrop
      rw [List.length_drop] at hlen
      simp only [List.length_cons] at hlen
      omega

/-- Claim C4: when a detected record-start pair is followed by zero
CJK-bearing tokens, one iteration of the scan loop records the window of at
most 40 tokens starting at the start position as a reject, and resumes
exactly one token past the failed start position. -/
theorem parse_tokens_reject_window (tokens : List String) (fuel i : Nat)
    (hstart : next_starts_entry tokens i = true)
    (hnoh : (hanziPhase tokens (i + 2)).1 = []) :
    parseLoop tokens (fuel + 1) i =
      ((parseLoop tokens fuel (i + 1)).1,
        spaceJoin ((tokens.drop i).take 40) :: (parseLoop tokens fuel (i + 1)).2) ∧
    ((tokens.drop i).take 40).length ≤ 40 := by
  have hlt : i < tokens.length := Nat.lt_of_succ_lt (next_starts_entry_lt hstart)
  refine ⟨?_, List.length_take_le _ _⟩
  simp only [parseLoop]
  rw [if_pos hlt, hstart]
  simp only [Bool.not_true, Bool.and_false, Bool.false_eq_true, if_false]
  rw [if_pos hnoh]

theorem parse_tokens_reject_window_witness :
    parseLoop ["3", "2", "abc"] (2 + 1) 0 =
      ((parseLoop ["3", "2", "abc"] 2 (0 + 1)).1,
        spaceJoin ((["3", "2", "abc"].drop 0).take 40) ::
          (parseLoop ["3", "2", "abc"] 2 (0 + 1)).2) ∧
    ((["3", "2", "abc"].drop 0).take 40).length ≤ 40 :=
  parse_tokens_reject_window ["3", "2", "abc"] 2 0 (by decide) (by decide)

theorem parseLoop_fuel_irrelevant (tokens : List String) :
    ∀ (f1 f2 i : Nat), tokens.length - i ≤ f1 → tokens.length - i ≤ f2 →
      parseLoop tokens f1 i = parseLoop tokens f2 i := by
  intro f1
  induction f1 with
  | zero =>
    intro f2 i h1 h2
    have hni : ¬ i < tokens.length := by omega
    cases f2 with
    | zero => rfl
    | succ h =>
      simp only [parseLoop]
      rw [if_neg hni]
  | succ g ih =>
    intro f2 i h1 h2
    cases f2 with
    | zero =>
      have hni : ¬ i < tokens.length := by omega
      simp only [parseLoop]
      rw [if_neg hni]
    | succ h =>
      simp only [parseLoop]
      by_cases hin : i < tokens.length
      · rw [if_pos hin, if_pos hin]
        have hrec1 : parseLoop tokens g (i + 1) = parseLoop tokens h (i + 1) :=
          ih h (i + 1) (by omega) (by omega)
        by_cases hpg : (isPageNumber (tokensGet tokens i) &&
            !next_starts_entry tokens i) = true
        · rw [if_pos hpg, if_pos hpg, hrec1]
        · rw [if_neg hpg, if_neg hpg]
          by_cases hns : (!next_starts_entry tokens i) = true
          · rw [if_pos hns, if_pos hns, hrec1]
          · rw [if_neg hns, if_neg hns]
            by_cases hh : (hanziPhase tokens (i + 2)).1 = []
            · rw [if_pos hh, if_pos hh, hrec1]
            · rw [if_neg hh, if_neg hh]
              have g1 : i + 2 ≤ (hanziPhase tokens (i + 2)).2 :=
                hanziPhase_snd_ge tokens (i + 2)
              have g2 : (hanziPhase tokens (i + 2)).2 ≤
                  (pinyinPhase tokens ((hanziPhase tokens (i + 2)).2)).2 :=
                pinyinPhase_snd_ge tokens _
              have g3 : (pinyinPhase tokens ((hanziPhase tokens (i + 2)).2)).2 ≤
                  (posPhase tokens
                    ((pinyinPhase tokens ((hanziPhase tokens (i + 2)).2)).2)).2 :=
                posPhase_snd_ge tokens _
              have hrec2 : parseLoop tokens g
                    ((posPhase tokens
                      ((pinyinPhase tokens ((hanziPhase tokens (i + 2)).2)).2)).2) =
                  parseLoop tokens h
                    ((posPhase tokens
                      ((pinyinPhase tokens ((hanziPhase tokens (i + 2)).2)).2)).2) :=
                ih h _ (by omega) (by omega)
              rw [hrec2]
      · rw [if_neg hin, if_neg hin]

/-- Claim C5: the parser terminates on every finite token stream — the scan
loop from position `i` stabilizes within `tokens.length - i` iterations (one
unit of fuel per iteration, each iteration advancing the position by at
least one token, including the reject/resync branch), so any fuel of at
least `tokens.length` computes `parse_tokens`: the work is linear in the
stream length and the loop can never run forever. -/
theorem parse_tokens_terminates :
    (∀ (tokens : List String) (fuel i : Nat), tokens.length - i ≤ fuel →
      parseLoop tokens fuel i = parseLoop tokens (tokens.length - i) i) ∧
    (∀ (tokens : List String) (fuel : Nat), tokens.length ≤ fuel →
      parseLoop tokens fuel 0 = parse_tokens tokens) := by
  constructor
  · intro tokens fuel i h
    exact parseLoop_fuel_irrelevant tokens fuel (tokens.length - i) i h (Nat.le_refl _)
  · intro tokens fuel h
    unfold parse_tokens
    exact parseLoop_fuel_irrelevant tokens fuel tokens.length 0 (by omega) (by omega)

theorem parse_tokens_terminates_witness :
    parseLoop ["12", "1", "爱", "ài", "动"] 100 0 =
      parse_tokens ["12", "1", "爱", "ài", "动"] :=
  parse_tokens_terminates.2 ["12", "1", "爱", "ài", "动"] 100 (by decide)

end ChineseReader
